import Mathlib

/-!
Verification development for the 100 m race simulation
(`src/apps/race-100m/main.js`).

Shallow embedding conventions:
* JS numbers are modelled as `ℚ` (all arithmetic in scope is exact:
  additions, multiplications, divisions by 1000, comparisons).
* `performance.now()` values are environment inputs carried by events.
* The DOM, renderer, GVRM actors and WebAudio are opaque collaborators;
  the observable effect of a sound/flash cue is recorded in a `cues` log.
* The countdown (`countdown`, lines 238-251) is a chain of `setTimeout`
  callbacks.  Each in-flight invocation is modelled by the index of its
  next label; the scheduler firing a queued timeout is an explicit event.
  Note the source keeps no cancellation token: `resetRace` does not touch
  the chain.
* `localStorage` persistence is out of scope; the in-memory `pbs` object
  and `names` array are part of the state.
-/

namespace Race100m

/-- Lane x offsets (`lanes`, main.js line 24). -/
def lanes : List ℚ := [-4.5, -1.5, 1.5, 4.5]

/-- Start line z coordinate (`startZ`, line 26). -/
def startZ : ℚ := 0

/-- Finish line z coordinate (`finishZ`, line 27): 100 meters. -/
def finishZ : ℚ := 100

/-- Countdown labels passed to `countdown` (line 197). -/
def cdLabels : List String := ["3", "2", "1", "GO!"]

/-- Per-lane competitor record (the parts of `Runner` (line 45) with
race-relevant state: `position.z`, `speed`, `finished`, `tFinish`, `lane`,
and the actor playback speed `action.timeScale`). -/
structure Runner where
  lane : Nat
  posZ : ℚ
  speed : ℚ
  finished : Bool
  tFinish : Option ℚ
  timeScale : ℚ
  deriving DecidableEq

/-- One freshly loaded runner (`loadRunners`, lines 138-163): placed at the
start line, speed sampled as `6.5 + u * 2.2` where `u` is the value
returned by `Math.random()` (line 156), animation sped up to 2.2. -/
def mkRunner (i : Nat) (u : ℚ) : Runner :=
  { lane := i + 1
    posZ := startZ
    speed := 6.5 + u * 2.2
    finished := false
    tFinish := none
    timeScale := 2.2 }

/-- `loadRunners` (lines 126-167) over the list of random samples, one per
source model, keeping lane order.  `j` is the index of the first lane. -/
def loadRunnersAux (j : Nat) : List ℚ → List Runner
  | [] => []
  | u :: us => mkRunner j u :: loadRunnersAux (j + 1) us

/-- `loadRunners`: the runner list created at page load. -/
def loadRunners (us : List ℚ) : List Runner := loadRunnersAux 0 us

/-- Display name for a lane: `names[r.lane - 1] || 'Lane N'`
(lines 228 and 321; the empty string is falsy in JS). -/
def nameFor (names : List String) (lane : Nat) : String :=
  match names.get? (lane - 1) with
  | some n => if n = "" then "Lane " ++ toString lane else n
  | none => "Lane " ++ toString lane

/-- JS object property assignment `pbs[name] = t` on the personal-best
table, modelled as an association list update (replace or append). -/
def setPB : List (String × ℚ) → String → ℚ → List (String × ℚ)
  | [], n, t => [(n, t)]
  | (m, v) :: rest, n, t =>
      if m = n then (n, t) :: rest else (m, v) :: setPB rest n t

/-- Body of the `finalizePBs` loop for one runner (lines 319-326):
skip unfinished runners; otherwise store the new time iff there is no
previous record or the new time is strictly smaller. -/
def pbMerge (names : List String) (pbs : List (String × ℚ)) (r : Runner) :
    List (String × ℚ) :=
  match r.tFinish with
  | none => pbs
  | some t =>
      let n := nameFor names r.lane
      match pbs.lookup n with
      | none => setPB pbs n t
      | some prev => if t < prev then setPB pbs n t else pbs

/-- `finalizePBs` (lines 318-329): fold the merge over the runners in lane
order.  (`savePBs`/`updateScores` are display/persistence effects.) -/
def finalizePBs (names : List String) (pbs : List (String × ℚ))
    (rs : List Runner) : List (String × ℚ) :=
  rs.foldl (pbMerge names) pbs

/-- Per-runner advancement inside the animation loop (lines 95-108):
finished runners are skipped (`continue`); otherwise
`position.z += speed * dt`, and on crossing `finishZ` the position is
clamped to exactly `finishZ`, `finished`/`tFinish` are set and the actor
animation is slowed to 0.6. -/
def advanceRunner (dt elapsed : ℚ) (r : Runner) : Runner :=
  if r.finished then r
  else
    let z := r.posZ + r.speed * dt
    if finishZ ≤ z then
      { r with posZ := finishZ, finished := true, tFinish := some elapsed,
               timeScale := 0.6 }
    else { r with posZ := z }

/-- Per-runner part of `resetRace` (lines 207-212): back to the start
line, flags cleared, animation restored to 2.2. -/
def resetRunner (r : Runner) : Runner :=
  { r with posZ := startZ, finished := false, tFinish := none,
           timeScale := 2.2 }

/-- The module-level mutable state of `main.js`: `runners`, `raceStarted`,
`tStart`, `lastT`, the in-flight countdown invocations (index of the next
label of each chain), the fired cue log, `names` and `pbs`. -/
structure RaceState where
  runners : List Runner
  raceStarted : Bool
  tStart : ℚ
  lastT : ℚ
  cds : List Nat
  cues : List String
  names : List String
  pbs : List (String × ℚ)
  deriving DecidableEq

/-- External events driving the machine: the start button / Space key,
a queued countdown timeout firing (for the `k`-th in-flight chain, with
the current wall-clock time), the reset button, and an animation frame at
wall-clock time `now` (milliseconds, like `performance.now()`). -/
inductive Event where
  | pressStart
  | cdStep (k : Nat) (now : ℚ)
  | pressReset
  | tick (now : ℚ)
  deriving DecidableEq

/-- State right after page load (lines 44-58): runners loaded from the
random samples `us`, race not started, no countdown in flight, names and
personal bests as read from storage. -/
def initState (us : List ℚ) (nm : List String) (pb : List (String × ℚ)) :
    RaceState :=
  { runners := loadRunners us
    raceStarted := false
    tStart := 0
    lastT := 0
    cds := []
    cues := []
    names := nm
    pbs := pb }

/-- One transition of the machine.

* `pressStart` = `startRace` (lines 194-202): a no-op iff `raceStarted`;
  otherwise `countdown` is invoked, whose first `step()` runs
  synchronously, firing the beep for label 0 and queueing a chain whose
  next index is 1.
* `cdStep k now` = the queued timeout of chain `k` firing
  (lines 241-249): past the last label it resolves the promise, so the
  `then` callback (lines 197-201) fires the gunshot, records
  `tStart = performance.now()` and sets `raceStarted = true`; otherwise
  it fires the beep for the next label and advances the chain.
* `pressReset` = `resetRace` (lines 204-214): clears `raceStarted` and
  resets every runner.  The source keeps no handle on the countdown
  chains, so `cds` is untouched.
* `tick now` = one animation frame (lines 80-118): `dt` is clamped to
  0.05 s, `lastT` updated; while `raceStarted`, every runner advances
  with the same `elapsed = (now - tStart)/1000`, and when all runners
  have finished the clock stops and the personal bests are merged. -/
def step (s : RaceState) : Event → RaceState
  | Event.pressStart =>
      if s.raceStarted then s
      else { s with cues := s.cues ++ [cdLabels.getD 0 ""],
                    cds := s.cds ++ [1] }
  | Event.cdStep k now =>
      match s.cds.get? k with
      | none => s
      | some i =>
          if i < cdLabels.length then
            { s with cues := s.cues ++ [cdLabels.getD i ""],
                     cds := s.cds.set k (i + 1) }
          else
            { s with cues := s.cues ++ ["start"],
                     tStart := now,
                     raceStarted := true,
                     cds := s.cds.eraseIdx k }
  | Event.pressReset =>
      { s with raceStarted := false,
               runners := s.runners.map resetRunner }
  | Event.tick now =>
      let dt := min 0.05 ((now - s.lastT) / 1000)
      let elapsed := (now - s.tStart) / 1000
      if s.raceStarted then
        let rs := s.runners.map (advanceRunner dt elapsed)
        if rs.all (fun r => r.finished) then
          { s with lastT := now, runners := rs, raceStarted := false,
                   pbs := finalizePBs s.names s.pbs rs }
        else { s with lastT := now, runners := rs }
      else { s with lastT := now }

/-- Run a sequence of events from a state. -/
def runTrace (s : RaceState) (evts : List Event) : RaceState :=
  evts.foldl step s

/-! ### Scoreboard sorting (`updateScores`, lines 216-236)

The source sorts a copy of `runners` with the comparator

```
if (a.tFinish == null && b.tFinish == null) return 0;
if (a.tFinish == null) return 1;
if (b.tFinish == null) return -1;
return a.tFinish - b.tFinish;
```

using the (stable, since ES2019) built-in `Array.prototype.sort`.  For a
consistent comparator the stable sorted output is unique, so the sort is
modelled by a stable insertion sort over the relation `comparator ≤ 0`.
-/

/-- `comparator a b ≤ 0` as a boolean, read off the source comparator. -/
def rleB (a b : Runner) : Bool :=
  match a.tFinish, b.tFinish with
  | none, none => true
  | none, some _ => false
  | some _, none => true
  | some ta, some tb => ta ≤ tb

/-- The sort order as a relation. -/
def Rle (a b : Runner) : Prop := rleB a b = true

instance : DecidableRel Rle :=
  fun a b => inferInstanceAs (Decidable (rleB a b = true))

/-- The scoreboard order `sorted` computed by `updateScores` (line 218). -/
def sortScores (rs : List Runner) : List Runner := List.insertionSort Rle rs

/-- The ordering the specification describes: a runner may precede
another iff the later one is unfinished, or both are finished and the
earlier one's time is no larger. -/
def specLe (a b : Runner) : Prop :=
  b.tFinish = none ∨
    ∃ ta tb, a.tFinish = some ta ∧ b.tFinish = some tb ∧ ta ≤ tb

/-- The unfinished (null `tFinish`) runners of a list, in order. -/
def unfinishedOf (rs : List Runner) : List Runner :=
  rs.filter (fun r => r.tFinish.isNone)

/-! ### Camera framing (`fitCameraToTrack`, lines 169-192) -/

/-- `Math.min` folded over further arguments. -/
def listMinQ (z : ℚ) (zs : List ℚ) : ℚ := zs.foldl min z

/-- `Math.max` folded over further arguments. -/
def listMaxQ (z : ℚ) (zs : List ℚ) : ℚ := zs.foldl max z

/-- `Math.min(...xs)` for the nonempty spreads appearing in the source
(`Math.min()` of an empty spread would be `Infinity`; it never occurs,
so the `[]` case is arbitrary). -/
def jsMathMin : List ℚ → ℚ
  | [] => 0
  | z :: zs => listMinQ z zs

/-- `Math.max(...xs)` for the nonempty spreads appearing in the source. -/
def jsMathMax : List ℚ → ℚ
  | [] => 0
  | z :: zs => listMaxQ z zs

/-- `trackMinX = Math.min(...lanes) - 1.8` (line 170). -/
def trackMinX : ℚ := jsMathMin lanes - 1.8

/-- `trackMaxX = Math.max(...lanes) + 1.8` (line 171). -/
def trackMaxX : ℚ := jsMathMax lanes + 1.8

/-- `trackWidth = trackMaxX - trackMinX` (line 172). -/
def trackWidth : ℚ := trackMaxX - trackMinX

/-- `THREE.MathUtils.clamp(value, min, max) = Math.max(min, Math.min(max, value))`. -/
def clampQ (x lo hi : ℚ) : ℚ := max lo (min hi x)

/-- Camera distance (lines 177-179):
`d = clamp((trackWidth/2 * 1.1) / (tan(vFov/2) * aspect), 7, 16)`.
`tan(vFov/2)` (with `vFov = degToRad(62)`, a fixed irrational value
≈ 0.6009) is kept as a parameter: the claim under test holds for every
value of it. -/
def camDistance (tanHalfVFov aspect : ℚ) : ℚ :=
  clampQ ((trackWidth / 2) * 1.1 / (tanHalfVFov * aspect)) 7 16

/-- `avgZ` fed to `fitCameraToTrack` (line 88): mean runner z, or 0 when
there are no runners. -/
def avgZof (rs : List Runner) : ℚ :=
  if rs.length = 0 then 0
  else (rs.foldl (fun a r => a + r.posZ) 0) / rs.length

/-- `focusZ` (lines 181-186): the passed `avgZ` is replaced by
`Math.min(...runners.map(r => r.object.position.z))` whenever the runner
list is nonempty. -/
def camFocusZ (rs : List Runner) (avgZ : ℚ) : ℚ :=
  match rs.map (fun r => r.posZ) with
  | [] => avgZ
  | z :: zs => listMinQ z zs

/-! ### Trace validity and invariants -/

/-- A trace is valid when every animation frame carries a wall-clock
time at least the previous one (`performance.now()` is monotone). -/
def validTrace : RaceState → List Event → Bool
  | _, [] => true
  | s, e :: es =>
      (match e with
       | Event.tick now => decide (s.lastT ≤ now)
       | _ => true) && validTrace (step s e) es

/-- The spec's runner invariant: `finished == true ⇔ finishTime != null
⇔ position.z >= finishDistance`. -/
def RunnerInv (r : Runner) : Prop :=
  (r.finished = true ↔ r.tFinish ≠ none) ∧
    (r.finished = true ↔ finishZ ≤ r.posZ)

/-! ### Concrete states for witnesses and counterexamples -/

/-- Concrete random samples: all zero, so every speed is 6.5. -/
def us0 : List ℚ := [0, 0, 0, 0]

/-- The default name table (line 306). -/
def defaultNames : List String := ["Lane 1", "Lane 2", "Lane 3", "Lane 4"]

/-- Concrete page-load state. -/
def s0 : RaceState := initState us0 defaultNames []

/-- `s0` right after the start button: the countdown is in flight
("3" shown and beeped, next label queued), the race not yet started —
the spec's Countdown phase. -/
def sCd : RaceState := step s0 Event.pressStart

/-- `s0` after start and the full countdown chain: `raceStarted = true` —
the spec's Running phase. -/
def sRun : RaceState :=
  runTrace s0
    [Event.pressStart, Event.cdStep 0 0, Event.cdStep 0 0,
     Event.cdStep 0 0, Event.cdStep 0 0]

/-- Trace for C1: start, reset while the countdown shows "3", then let
the queued countdown timeouts fire. -/
def c1Trace : List Event :=
  [Event.pressStart, Event.pressReset, Event.cdStep 0 0, Event.cdStep 0 0,
   Event.cdStep 0 0, Event.cdStep 0 0]

/-- Trace for C4: a first race attempt is started, the session is reset,
and a second attempt is started (its countdown completing, so the race
is Running again). -/
def c4Trace : List Event :=
  [Event.pressStart, Event.cdStep 0 0, Event.cdStep 0 0, Event.cdStep 0 0,
   Event.cdStep 0 0, Event.pressReset,
   Event.pressStart, Event.cdStep 0 200, Event.cdStep 0 200,
   Event.cdStep 0 200, Event.cdStep 0 200]

/-- A concrete finished runner: at the finish line with a recorded time. -/
def rFin : Runner :=
  { lane := 1, posZ := finishZ, speed := 7, finished := true,
    tFinish := some 12, timeScale := 0.6 }

/-- A concrete Running-phase state holding the finished runner `rFin`. -/
def sFin : RaceState :=
  { runners := [rFin], raceStarted := true, tStart := 0, lastT := 0,
    cds := [], cues := [], names := defaultNames, pbs := [] }

/-- Auxiliary strengthened position invariant: nonnegative speed and a
position between the start and finish lines. -/
def PosBounded (r : Runner) : Prop :=
  0 ≤ r.speed ∧ startZ ≤ r.posZ ∧ r.posZ ≤ finishZ

/-! ## Helper lemmas -/

lemma advanceRunner_finished (dt e : ℚ) (r : Runner) (h : r.finished = true) :
    advanceRunner dt e r = r := by
  simp [advanceRunner, h]

lemma runners_step_pressStart (s : RaceState) :
    (step s Event.pressStart).runners = s.runners := by
  simp only [step]; split <;> rfl

lemma runners_step_cdStep (s : RaceState) (k : Nat) (now : ℚ) :
    (step s (Event.cdStep k now)).runners = s.runners := by
  simp only [step]
  rcases h : s.cds.get? k with _ | i
  · simp [h]
  · simp only [h]
    split <;> rfl

lemma runners_step_tick (s : RaceState) (now : ℚ) :
    (step s (Event.tick now)).runners =
      if s.raceStarted then
        s.runners.map (advanceRunner (min 0.05 ((now - s.lastT) / 1000))
          ((now - s.tStart) / 1000))
      else s.runners := by
  cases h : s.raceStarted <;> simp only [step, h, if_true, if_false]
  · rfl
  · split <;> rfl

lemma listMinQ_le (z : ℚ) (zs : List ℚ) :
    listMinQ z zs ≤ z ∧ ∀ y ∈ zs, listMinQ z zs ≤ y := by
  induction zs generalizing z with
  | nil => simp [listMinQ]
  | cons w ws ih =>
      have hstep : listMinQ z (w :: ws) = listMinQ (min z w) ws := rfl
      have h := ih (min z w)
      rw [hstep]
      refine ⟨le_trans h.1 (min_le_left z w), ?_⟩
      intro y hy
      rcases List.mem_cons.mp hy with rfl | hy
      · exact le_trans h.1 (min_le_right z y)
      · exact h.2 y hy

lemma listMinQ_mem (z : ℚ) (zs : List ℚ) :
    listMinQ z zs = z ∨ listMinQ z zs ∈ zs := by
  induction zs generalizing z with
  | nil => left; rfl
  | cons w ws ih =>
      have hstep : listMinQ z (w :: ws) = listMinQ (min z w) ws := rfl
      rcases ih (min z w) with h | h
      · rcases min_choice z w with h2 | h2
        · left; rw [hstep, h, h2]
        · right; rw [hstep, h, h2]; exact List.mem_cons_self w ws
      · right; rw [hstep]; exact List.mem_cons_of_mem w h

/-! ## The claims -/

/-- C1: the spec demands that a reset issued during the countdown
cancels it: no further countdown step fires, no race-start cue fires,
the phase stays Idle and the race never starts.  The code has no
cancellation token: after `resetRace` the queued `setTimeout` chain keeps
stepping, fires "2", "1", "GO!" and the start gunshot, and sets
`raceStarted = true`.  This theorem evaluates the code at the failing
trace (reset right after the "3" step). -/
theorem c1_reset_does_not_cancel_countdown :
    (runTrace s0 c1Trace).raceStarted = true ∧
      (runTrace s0 c1Trace).cues = ["3", "2", "1", "GO!", "start"] :=
  ⟨rfl, rfl⟩

/-- C2, counterexample: in the Countdown phase (countdown chain in
flight, race not yet started) a start request is NOT a no-op: since
`startRace` only guards on `raceStarted`, it fires another "3" beep and
queues a second countdown chain. -/
theorem c2_counterexample :
    step sCd Event.pressStart ≠ sCd ∧
      (step sCd Event.pressStart).cds = [1, 1] ∧
      (step sCd Event.pressStart).cues = ["3", "3"] := by
  refine ⟨fun h => ?_, rfl, rfl⟩
  have h2 := congrArg RaceState.cds h
  have e1 : (step sCd Event.pressStart).cds = [1, 1] := rfl
  have e2 : sCd.cds = [1] := rfl
  rw [e1, e2] at h2
  exact absurd h2 (by decide)

/-- C2, amended: only while the race is Running (`raceStarted`) is a
start request a no-op leaving the whole session state unchanged; during
Countdown the code starts a second countdown sequence. -/
theorem c2_start_noop_while_running (s : RaceState)
    (h : s.raceStarted = true) : step s Event.pressStart = s := by
  simp [step, h]

/-- Witness for C2 amended, at the concrete Running state `sRun`. -/
theorem c2_start_noop_while_running_witness :
    sRun.raceStarted = true ∧ step sRun Event.pressStart = sRun :=
  ⟨by decide, c2_start_noop_while_running sRun (by decide)⟩

/-- C8: for a nonempty runner list the camera focus coordinate is the
minimum `position.z` over all runners — a lower bound on every runner's
position that is attained by one of them (the rearmost runner), no
matter what average was passed in. -/
theorem c8_focus_is_rearmost (rs : List Runner) (avg : ℚ) (h : rs ≠ []) :
    (∀ r ∈ rs, camFocusZ rs avg ≤ r.posZ) ∧
      ∃ r ∈ rs, camFocusZ rs avg = r.posZ := by
  cases rs with
  | nil => exact absurd rfl h
  | cons a l =>
      have hfocus :
          camFocusZ (a :: l) avg = listMinQ a.posZ (l.map (fun r => r.posZ)) := rfl
      constructor
      · intro r hr
        rcases List.mem_cons.mp hr with rfl | hr
        · rw [hfocus]; exact (listMinQ_le _ _).1
        · rw [hfocus]
          exact (listMinQ_le _ _).2 r.posZ (List.mem_map.mpr ⟨r, hr, rfl⟩)
      · rcases listMinQ_mem a.posZ (l.map (fun r => r.posZ)) with hm | hm
        · exact ⟨a, List.mem_cons_self a l, by rw [hfocus, hm]⟩
        · rcases List.mem_map.mp hm with ⟨r, hr, hz⟩
          exact ⟨r, List.mem_cons_of_mem a hr, by rw [hfocus, hz]⟩

/-- Witness for C8 at the loaded state's runner list. -/
theorem c8_focus_is_rearmost_witness :
    s0.runners ≠ [] ∧
      ((∀ r ∈ s0.runners, camFocusZ s0.runners 0 ≤ r.posZ) ∧
        ∃ r ∈ s0.runners, camFocusZ s0.runners 0 = r.posZ) :=
  ⟨by decide, c8_focus_is_rearmost s0.runners 0 (by decide)⟩

/-- C9: for every aspect ratio (in particular throughout [0.3, 4]) and
every value of `tan(vFov/2)`, the computed camera distance lies in the
clamp range [7, 16]. -/
theorem c9_cam_distance_in_clamp_range (t a : ℚ)
    (_h1 : 3/10 ≤ a) (_h2 : a ≤ 4) :
    7 ≤ camDistance t a ∧ camDistance t a ≤ 16 := by
  unfold camDistance clampQ
  exact ⟨le_max_left 7 _, max_le (by norm_num) (min_le_left 16 _)⟩

/-- Witness for C9 at aspect ratio 1 and `tan(31°) ≈ 3/5`. -/
theorem c9_cam_distance_in_clamp_range_witness :
    (3/10 : ℚ) ≤ 1 ∧ (1 : ℚ) ≤ 4 ∧
      (7 ≤ camDistance (3/5) 1 ∧ camDistance (3/5) 1 ≤ 16) :=
  ⟨by norm_num, by norm_num,
    c9_cam_distance_in_clamp_range (3/5) 1 (by norm_num) (by norm_num)⟩

lemma runTrace_cons (s : RaceState) (e : Event) (es : List Event) :
    runTrace s (e :: es) = runTrace (step s e) es := rfl

lemma speed_advanceRunner (dt e : ℚ) (r : Runner) :
    (advanceRunner dt e r).speed = r.speed := by
  unfold advanceRunner
  split
  · rfl
  · dsimp only
    split <;> rfl

lemma runnerInv_advance (dt e : ℚ) (r : Runner) (h : RunnerInv r) :
    RunnerInv (advanceRunner dt e r) := by
  obtain ⟨la, pz, sp, fin, tf, ts⟩ := r
  cases fin with
  | false =>
      have ht : tf = none := by
        rcases h with ⟨h1, -⟩
        cases tf with
        | none => rfl
        | some t => simpa using h1.mpr (by simp)
      subst ht
      by_cases hz : finishZ ≤ pz + sp * dt
      · simp [advanceRunner, RunnerInv, hz]
      · simp [advanceRunner, RunnerInv, hz]
  | true => simpa [advanceRunner] using h

lemma runnerInv_reset (r : Runner) : RunnerInv (resetRunner r) := by
  constructor
  · simp [resetRunner]
  · simp only [resetRunner]
    norm_num [finishZ, startZ]

lemma runnerInv_mk (i : Nat) (u : ℚ) : RunnerInv (mkRunner i u) := by
  constructor
  · simp [mkRunner]
  · simp only [mkRunner]
    norm_num [finishZ, startZ]

lemma runnerInv_step (s : RaceState) (e : Event)
    (h : ∀ r ∈ s.runners, RunnerInv r) :
    ∀ r ∈ (step s e).runners, RunnerInv r := by
  intro r hr
  cases e with
  | pressStart => rw [runners_step_pressStart] at hr; exact h r hr
  | cdStep k now => rw [runners_step_cdStep] at hr; exact h r hr
  | pressReset =>
      have heq : (step s Event.pressReset).runners = s.runners.map resetRunner := rfl
      rw [heq] at hr
      rcases List.mem_map.mp hr with ⟨a, -, rfl⟩
      exact runnerInv_reset a
  | tick now =>
      rw [runners_step_tick] at hr
      by_cases hs : s.raceStarted = true
      · rw [if_pos hs] at hr
        rcases List.mem_map.mp hr with ⟨a, ha, rfl⟩
        exact runnerInv_advance _ _ a (h a ha)
      · rw [if_neg hs] at hr
        exact h r hr

lemma runnerInv_runTrace (evts : List Event) :
    ∀ s : RaceState, (∀ r ∈ s.runners, RunnerInv r) →
      ∀ r ∈ (runTrace s evts).runners, RunnerInv r := by
  induction evts with
  | nil => intro s h; exact h
  | cons e es ih =>
      intro s h
      rw [runTrace_cons]
      exact ih (step s e) (runnerInv_step s e h)

lemma mem_loadRunnersAux :
    ∀ (us : List ℚ) (j : Nat) (r : Runner), r ∈ loadRunnersAux j us →
      ∃ i u, u ∈ us ∧ r = mkRunner i u := by
  intro us
  induction us with
  | nil => intro j r h; simp [loadRunnersAux] at h
  | cons u us ih =>
      intro j r h
      simp only [loadRunnersAux] at h
      rcases List.mem_cons.mp h with rfl | h
      · exact ⟨j, u, List.mem_cons_self u us, rfl⟩
      · rcases ih (j + 1) r h with ⟨i, v, hv, rfl⟩
        exact ⟨i, v, List.mem_cons_of_mem u hv, rfl⟩

lemma getElem?_loadRunnersAux :
    ∀ (us : List ℚ) (j i : Nat),
      (loadRunnersAux j us)[i]? = (us[i]?).map (fun u => mkRunner (j + i) u) := by
  intro us
  induction us with
  | nil => intro j i; simp [loadRunnersAux]
  | cons u us ih =>
      intro j i
      cases i with
      | zero => simp [loadRunnersAux]
      | succ i =>
          simp only [loadRunnersAux, List.getElem?_cons_succ]
          rw [ih (j + 1) i]
          have harith : j + 1 + i = j + (i + 1) := by omega
          rw [harith]

lemma speed_step (s : RaceState) (e : Event) (i : Nat) :
    ((step s e).runners[i]?).map (fun r => r.speed) =
      (s.runners[i]?).map (fun r => r.speed) := by
  cases e with
  | pressStart => rw [runners_step_pressStart]
  | cdStep k now => rw [runners_step_cdStep]
  | pressReset =>
      have heq : (step s Event.pressReset).runners = s.runners.map resetRunner := rfl
      rw [heq, List.getElem?_map]
      cases s.runners[i]? <;> rfl
  | tick now =>
      rw [runners_step_tick]
      by_cases hs : s.raceStarted = true
      · rw [if_pos hs, List.getElem?_map]
        cases h : s.runners[i]? with
        | none => rfl
        | some a => simp [speed_advanceRunner]
      · rw [if_neg hs]

lemma speed_runTrace (evts : List Event) :
    ∀ (s : RaceState) (i : Nat),
      ((runTrace s evts).runners[i]?).map (fun r => r.speed) =
        (s.runners[i]?).map (fun r => r.speed) := by
  induction evts with
  | nil => intro s i; rfl
  | cons e es ih =>
      intro s i
      rw [runTrace_cons, ih (step s e) i, speed_step]

lemma posBounded_advance (dt e : ℚ) (r : Runner) (hdt : 0 ≤ dt)
    (h : PosBounded r) : PosBounded (advanceRunner dt e r) := by
  obtain ⟨hs, h0, h1⟩ := h
  unfold advanceRunner
  by_cases hf : r.finished = true
  · rw [if_pos hf]; exact ⟨hs, h0, h1⟩
  · rw [if_neg hf]
    dsimp only
    by_cases hz : finishZ ≤ r.posZ + r.speed * dt
    · rw [if_pos hz]
      refine ⟨hs, ?_, le_refl _⟩
      norm_num [startZ, finishZ]
    · rw [if_neg hz]
      refine ⟨hs, ?_, le_of_not_le hz⟩
      have : (0:ℚ) ≤ r.speed * dt := mul_nonneg hs hdt
      simp only [startZ] at h0 ⊢
      linarith

lemma posBounded_step (s : RaceState) (e : Event)
    (hvB : (match e with
            | Event.tick now => decide (s.lastT ≤ now)
            | _ => true) = true)
    (h : ∀ r ∈ s.runners, PosBounded r) :
    ∀ r ∈ (step s e).runners, PosBounded r := by
  intro r hr
  cases e with
  | pressStart => rw [runners_step_pressStart] at hr; exact h r hr
  | cdStep k now => rw [runners_step_cdStep] at hr; exact h r hr
  | pressReset =>
      have heq : (step s Event.pressReset).runners = s.runners.map resetRunner := rfl
      rw [heq] at hr
      rcases List.mem_map.mp hr with ⟨a, ha, rfl⟩
      obtain ⟨hs1, -, -⟩ := h a ha
      refine ⟨hs1, le_refl _, ?_⟩
      show startZ ≤ finishZ
      norm_num [startZ, finishZ]
  | tick now =>
      have hnow : s.lastT ≤ now := of_decide_eq_true hvB
      rw [runners_step_tick] at hr
      by_cases hst : s.raceStarted = true
      · rw [if_pos hst] at hr
        rcases List.mem_map.mp hr with ⟨a, ha, rfl⟩
        have hdt : (0:ℚ) ≤ min 0.05 ((now - s.lastT) / 1000) := by
          have h1 : (0:ℚ) ≤ now - s.lastT := sub_nonneg.mpr hnow
          have h2 : (0:ℚ) ≤ (now - s.lastT) / 1000 := by positivity
          exact le_min (by norm_num) h2
        exact posBounded_advance _ _ a hdt (h a ha)
      · rw [if_neg hst] at hr
        exact h r hr

lemma posBounded_runTrace (evts : List Event) :
    ∀ s : RaceState, validTrace s evts = true →
      (∀ r ∈ s.runners, PosBounded r) →
      ∀ r ∈ (runTrace s evts).runners, PosBounded r := by
  induction evts with
  | nil => intro s _ h; exact h
  | cons e es ih =>
      intro s hv h
      simp only [validTrace, Bool.and_eq_true] at hv
      rw [runTrace_cons]
      exact ih (step s e) hv.2 (posBounded_step s e hv.1 h)

/-- C3: at every state reachable from page load, every runner satisfies
`finished == true ⇔ finishTime != null ⇔ position.z >= finishDistance`;
and once `finished` is true, every event other than an explicit reset
leaves the runner's whole record (in particular `finished` and
`finishTime`) unchanged. -/
theorem c3_finish_invariant :
    (∀ (us : List ℚ) (nm : List String) (pb : List (String × ℚ))
        (evts : List Event) (r : Runner),
        r ∈ (runTrace (initState us nm pb) evts).runners → RunnerInv r) ∧
      (∀ (s : RaceState) (e : Event), e ≠ Event.pressReset →
        ∀ (i : Nat) (r : Runner), s.runners[i]? = some r →
          r.finished = true → (step s e).runners[i]? = some r) := by
  constructor
  · intro us nm pb evts r hr
    refine runnerInv_runTrace evts (initState us nm pb) ?_ r hr
    intro a ha
    rcases mem_loadRunnersAux us 0 a ha with ⟨i, u, -, rfl⟩
    exact runnerInv_mk i u
  · intro s e he i r hget hfin
    cases e with
    | pressStart => rw [runners_step_pressStart]; exact hget
    | cdStep k now => rw [runners_step_cdStep]; exact hget
    | pressReset => exact absurd rfl he
    | tick now =>
        rw [runners_step_tick]
        by_cases hs : s.raceStarted = true
        · rw [if_pos hs, List.getElem?_map, hget, Option.map_some']
          rw [advanceRunner_finished _ _ r hfin]
        · rw [if_neg hs]; exact hget

/-- Witness for C3 at a freshly loaded runner and at a concrete finished
runner hit by a tick. -/
theorem c3_finish_invariant_witness :
    RunnerInv (mkRunner 0 0) ∧
      (step sFin (Event.tick 100)).runners[0]? = some rFin :=
  ⟨c3_finish_invariant.1 us0 defaultNames [] [] (mkRunner 0 0)
      (List.mem_cons_self _ _),
    c3_finish_invariant.2 sFin (Event.tick 100) (by decide) 0 rFin rfl rfl⟩

/-- C5: a runner whose `finished` flag is set is skipped by the
animation-frame advancement: its whole record — position, `finished`,
`finishTime` — is unchanged by any further tick. -/
theorem c5_finished_runner_frozen (s : RaceState) (now : ℚ) (i : Nat)
    (r : Runner) (hget : s.runners[i]? = some r)
    (hfin : r.finished = true) :
    (step s (Event.tick now)).runners[i]? = some r := by
  rw [runners_step_tick]
  by_cases hs : s.raceStarted = true
  · rw [if_pos hs, List.getElem?_map, hget, Option.map_some']
    rw [advanceRunner_finished _ _ r hfin]
  · rw [if_neg hs]; exact hget

/-- Witness for C5 at the concrete finished runner `rFin`. -/
theorem c5_finished_runner_frozen_witness :
    rFin.finished = true ∧
      (step sFin (Event.tick 100)).runners[0]? = some rFin :=
  ⟨rfl, c5_finished_runner_frozen sFin 100 0 rFin rfl rfl⟩

/-- C4, counterexample: speeds are NOT freshly sampled per race attempt.
After a full first attempt is started, reset, and a second attempt is
started, the second attempt runs with exactly the speeds sampled at page
load (`resetRace` never resamples; the only sampling site is
`loadRunners`). -/
theorem c4_counterexample :
    (runTrace s0 c4Trace).raceStarted = true ∧
      (runTrace s0 c4Trace).runners.map (fun r => r.speed) =
        s0.runners.map (fun r => r.speed) :=
  ⟨rfl, rfl⟩

/-- C4, amended: each runner's speed is sampled exactly once, at runner
load, as `6.5 + u * 2.2` from the `Math.random()` sample `u ∈ [0, 1)`
(hence lies in `[6.5, 8.7)`), and is immutable across every subsequent
event — including resets and later race attempts, which reuse it. -/
theorem c4_speed_sampled_at_load (us : List ℚ) (nm : List String)
    (pb : List (String × ℚ)) (evts : List Event) (i : Nat) (u : ℚ)
    (r : Runner) (hu : us[i]? = some u) (h0 : 0 ≤ u) (h1 : u < 1)
    (hr : (runTrace (initState us nm pb) evts).runners[i]? = some r) :
    r.speed = 6.5 + u * 2.2 ∧ 6.5 ≤ r.speed ∧ r.speed < 8.7 := by
  have hspeed : r.speed = 6.5 + u * 2.2 := by
    have h := speed_runTrace evts (initState us nm pb) i
    rw [hr] at h
    have hinit : (initState us nm pb).runners[i]? = some (mkRunner (0 + i) u) := by
      show (loadRunnersAux 0 us)[i]? = _
      rw [getElem?_loadRunnersAux, hu]
      rfl
    rw [hinit] at h
    simpa [mkRunner] using h
  refine ⟨hspeed, ?_, ?_⟩
  · rw [hspeed]
    have : (0:ℚ) ≤ u * 2.2 := mul_nonneg h0 (by norm_num)
    linarith
  · rw [hspeed]
    have : u * 2.2 < 1 * 2.2 :=
      mul_lt_mul_of_pos_right h1 (by norm_num)
    linarith

/-- Witness for C4 amended at load time with sample 0. -/
theorem c4_speed_sampled_at_load_witness :
    us0[0]? = some 0 ∧ (0:ℚ) ≤ 0 ∧ (0:ℚ) < 1 ∧
      ((mkRunner 0 0).speed = 6.5 + 0 * 2.2 ∧
        6.5 ≤ (mkRunner 0 0).speed ∧ (mkRunner 0 0).speed < 8.7) :=
  ⟨rfl, le_refl 0, by norm_num,
    c4_speed_sampled_at_load us0 defaultNames [] [] 0 0 (mkRunner 0 0)
      rfl (le_refl 0) (by norm_num) rfl⟩

/-- C10: in every valid run from page load (nonnegative random samples,
monotone wall clock), every runner's position stays between the start
line and the finish line: `0 ≤ position.z ≤ 100`. -/
theorem c10_positions_within_track (us : List ℚ) (nm : List String)
    (pb : List (String × ℚ)) (evts : List Event)
    (hu : ∀ u ∈ us, 0 ≤ u)
    (hv : validTrace (initState us nm pb) evts = true)
    (i : Nat) (r : Runner)
    (hr : (runTrace (initState us nm pb) evts).runners[i]? = some r) :
    startZ ≤ r.posZ ∧ r.posZ ≤ finishZ := by
  have hmem : r ∈ (runTrace (initState us nm pb) evts).runners :=
    List.getElem?_mem hr
  have hinit : ∀ a ∈ (initState us nm pb).runners, PosBounded a := by
    intro a ha
    rcases mem_loadRunnersAux us 0 a ha with ⟨j, u, hu2, rfl⟩
    refine ⟨?_, le_refl _, ?_⟩
    · have hu3 := hu u hu2
      have : (0:ℚ) ≤ u * 2.2 := mul_nonneg hu3 (by norm_num)
      show (0:ℚ) ≤ 6.5 + u * 2.2
      linarith
    · show startZ ≤ finishZ
      norm_num [startZ, finishZ]
  have h := posBounded_runTrace evts _ hv hinit r hmem
  exact ⟨h.2.1, h.2.2⟩

/-- Witness for C10 at page load. -/
theorem c10_positions_within_track_witness :
    (∀ u ∈ us0, 0 ≤ u) ∧ validTrace s0 [] = true ∧
      (startZ ≤ (mkRunner 0 0).posZ ∧ (mkRunner 0 0).posZ ≤ finishZ) :=
  ⟨by decide, rfl,
    c10_positions_within_track us0 defaultNames [] [] (by decide) rfl
      0 (mkRunner 0 0) rfl⟩

/-! ### Sorting lemmas for C6 -/

lemma rleB_total (a b : Runner) : rleB a b = true ∨ rleB b a = true := by
  obtain ⟨la, pa, sa, fa, tfa, ta⟩ := a
  obtain ⟨lb, pb2, sb, fb, tfb, tb⟩ := b
  cases tfa <;> cases tfb <;> simp [rleB]
  exact le_total _ _

instance : IsTotal Runner Rle := ⟨fun a b => rleB_total a b⟩

lemma rleB_trans (a b c : Runner) (hab : rleB a b = true)
    (hbc : rleB b c = true) : rleB a c = true := by
  obtain ⟨la, pa, sa, fa, tfa, ta⟩ := a
  obtain ⟨lb, pb2, sb, fb, tfb, tb⟩ := b
  obtain ⟨lc, pc, sc, fc, tfc, tc⟩ := c
  cases tfa <;> cases tfb <;> cases tfc <;> simp_all [rleB]
  exact le_trans hab hbc

instance : IsTrans Runner Rle := ⟨fun a b c => rleB_trans a b c⟩

lemma rle_specLe (a b : Runner) (h : Rle a b) : specLe a b := by
  unfold Rle rleB at h
  unfold specLe
  cases ha : a.tFinish with
  | none =>
      cases hb : b.tFinish with
      | none => left; rfl
      | some tb => rw [ha, hb] at h; simp at h
  | some ta =>
      cases hb : b.tFinish with
      | none => left; rfl
      | some tb =>
          rw [ha, hb] at h
          right
          exact ⟨ta, tb, rfl, rfl, by simpa using h⟩

lemma filter_unfinished_orderedInsert_some (a : Runner) (t : ℚ)
    (ha : a.tFinish = some t) (l : List Runner) :
    (List.orderedInsert Rle a l).filter (fun r => r.tFinish.isNone) =
      l.filter (fun r => r.tFinish.isNone) := by
  induction l with
  | nil => simp [List.orderedInsert, List.filter, ha]
  | cons b bs ih =>
      by_cases hr : Rle a b
      · rw [List.orderedInsert_of_le Rle bs hr]
        simp [List.filter_cons, ha]
      · have heq : List.orderedInsert Rle a (b :: bs) =
            b :: List.orderedInsert Rle a bs := by
          simp [List.orderedInsert, hr]
        rw [heq]
        simp [List.filter_cons, ih]

lemma filter_unfinished_orderedInsert_none (a : Runner)
    (ha : a.tFinish = none) (l : List Runner) :
    (List.orderedInsert Rle a l).filter (fun r => r.tFinish.isNone) =
      a :: l.filter (fun r => r.tFinish.isNone) := by
  induction l with
  | nil => simp [List.orderedInsert, List.filter, ha]
  | cons b bs ih =>
      cases hb : b.tFinish with
      | none =>
          have hr : Rle a b := by simp [Rle, rleB, ha, hb]
          rw [List.orderedInsert_of_le Rle bs hr]
          simp [List.filter_cons, ha, hb]
      | some tb =>
          have hr : ¬ Rle a b := by simp [Rle, rleB, ha, hb]
          have heq : List.orderedInsert Rle a (b :: bs) =
              b :: List.orderedInsert Rle a bs := by
            simp [List.orderedInsert, hr]
          rw [heq]
          simp [List.filter_cons, hb, ih]

lemma filter_unfinished_sortScores (rs : List Runner) :
    unfinishedOf (sortScores rs) = unfinishedOf rs := by
  unfold unfinishedOf sortScores
  induction rs with
  | nil => rfl
  | cons a l ih =>
      simp only [List.insertionSort]
      cases ha : a.tFinish with
      | none =>
          rw [filter_unfinished_orderedInsert_none a ha, ih]
          simp [List.filter_cons, ha]
      | some t =>
          rw [filter_unfinished_orderedInsert_some a t ha, ih]
          simp [List.filter_cons, ha]

/-- C6: the scoreboard sort is a permutation of the runner list that is
sorted for the spec's order (a runner precedes another only if the later
one is unfinished, or both finished and the earlier time is no larger —
so every unfinished runner comes after every finished one and finish
times are ascending), and the unfinished runners keep their original
lane order. -/
theorem c6_ranking_sorted (rs : List Runner) :
    List.Sorted specLe (sortScores rs) ∧
      (sortScores rs).Perm rs ∧
      unfinishedOf (sortScores rs) = unfinishedOf rs := by
  refine ⟨?_, List.perm_insertionSort Rle rs, filter_unfinished_sortScores rs⟩
  have h := List.sorted_insertionSort Rle rs
  exact h.imp (fun hab => rle_specLe _ _ hab)

/-! ### Personal-best lemmas for C7 -/

lemma lookup_setPB_self (pbs : List (String × ℚ)) (n : String) (t : ℚ) :
    (setPB pbs n t).lookup n = some t := by
  induction pbs with
  | nil => simp [setPB, List.lookup]
  | cons p rest ih =>
      obtain ⟨m, v⟩ := p
      by_cases h : m = n
      · subst h; simp [setPB, List.lookup]
      · have h2 : (n == m) = false := beq_eq_false_iff_ne.mpr (Ne.symm h)
        simp [setPB, h, List.lookup, h2, ih]

lemma lookup_setPB_ne (pbs : List (String × ℚ)) (n m : String) (t : ℚ)
    (h : m ≠ n) : (setPB pbs n t).lookup m = pbs.lookup m := by
  have h2 : (m == n) = false := beq_eq_false_iff_ne.mpr h
  induction pbs with
  | nil => simp [setPB, List.lookup, h2]
  | cons p rest ih =>
      obtain ⟨k, v⟩ := p
      by_cases hk : k = n
      · subst hk; simp [setPB, List.lookup, h2]
      · by_cases hm : m = k
        · subst hm; simp [setPB, hk, List.lookup]
        · have h3 : (m == k) = false := beq_eq_false_iff_ne.mpr hm
          simp [setPB, hk, List.lookup, h3, ih]

lemma pbMerge_lookup_self (nm : List String) (pbs : List (String × ℚ))
    (r : Runner) (t : ℚ) (h : r.tFinish = some t) :
    ∃ v, (pbMerge nm pbs r).lookup (nameFor nm r.lane) = some v ∧ v ≤ t := by
  cases hl : pbs.lookup (nameFor nm r.lane) with
  | none =>
      refine ⟨t, ?_, le_refl t⟩
      simp only [pbMerge, h, hl]
      exact lookup_setPB_self pbs _ t
  | some prev =>
      by_cases hc : t < prev
      · refine ⟨t, ?_, le_refl t⟩
        simp only [pbMerge, h, hl, if_pos hc]
        exact lookup_setPB_self pbs _ t
      · refine ⟨prev, ?_, le_of_not_lt hc⟩
        simp only [pbMerge, h, hl, if_neg hc]

lemma pbMerge_mono (nm : List String) (pbs : List (String × ℚ))
    (r : Runner) (n : String) (v : ℚ) (h : pbs.lookup n = some v) :
    ∃ w, (pbMerge nm pbs r).lookup n = some w ∧ w ≤ v := by
  cases ht : r.tFinish with
  | none => exact ⟨v, by simp only [pbMerge, ht]; exact h, le_refl v⟩
  | some t =>
      cases hl : pbs.lookup (nameFor nm r.lane) with
      | none =>
          by_cases hn : n = nameFor nm r.lane
          · rw [hn, hl] at h; cases h
          · refine ⟨v, ?_, le_refl v⟩
            simp only [pbMerge, ht, hl]
            rw [lookup_setPB_ne pbs _ n t hn]
            exact h
      | some prev =>
          by_cases hc : t < prev
          · by_cases hn : n = nameFor nm r.lane
            · have hpv : prev = v := by
                rw [hn, hl] at h
                exact Option.some.inj h
              refine ⟨t, ?_, ?_⟩
              · simp only [pbMerge, ht, hl, if_pos hc]
                rw [hn]
                exact lookup_setPB_self pbs _ t
              · rw [← hpv]
                exact le_of_lt hc
            · refine ⟨v, ?_, le_refl v⟩
              simp only [pbMerge, ht, hl, if_pos hc]
              rw [lookup_setPB_ne pbs _ n t hn]
              exact h
          · refine ⟨v, ?_, le_refl v⟩
            simp only [pbMerge, ht, hl, if_neg hc]
            exact h

lemma finalizePBs_mono (rs : List Runner) :
    ∀ (nm : List String) (pbs : List (String × ℚ)) (n : String) (v : ℚ),
      pbs.lookup n = some v →
      ∃ w, (finalizePBs nm pbs rs).lookup n = some w ∧ w ≤ v := by
  induction rs with
  | nil => intro nm pbs n v h; exact ⟨v, h, le_refl v⟩
  | cons r rs ih =>
      intro nm pbs n v h
      rcases pbMerge_mono nm pbs r n v h with ⟨w1, h1, hle1⟩
      rcases ih nm (pbMerge nm pbs r) n w1 h1 with ⟨w, h2, hle2⟩
      exact ⟨w, h2, le_trans hle2 hle1⟩

lemma finalizePBs_bound (rs : List Runner) :
    ∀ (nm : List String) (pbs : List (String × ℚ)) (r : Runner) (t : ℚ),
      r ∈ rs → r.tFinish = some t →
      ∃ v, (finalizePBs nm pbs rs).lookup (nameFor nm r.lane) = some v ∧
        v ≤ t := by
  induction rs with
  | nil => intro nm pbs r t hmem; cases hmem
  | cons a as ih =>
      intro nm pbs r t hmem ht
      rcases List.mem_cons.mp hmem with rfl | hmem
      · rcases pbMerge_lookup_self nm pbs r t ht with ⟨v1, h1, hle1⟩
        rcases finalizePBs_mono as nm (pbMerge nm pbs r) _ v1 h1 with
          ⟨v, h2, hle2⟩
        exact ⟨v, h2, le_trans hle2 hle1⟩
      · exact ih nm (pbMerge nm pbs a) r t hmem ht

lemma pbMerge_noop (nm : List String) (pbs : List (String × ℚ))
    (r : Runner)
    (h : ∀ t, r.tFinish = some t →
      ∃ v, pbs.lookup (nameFor nm r.lane) = some v ∧ v ≤ t) :
    pbMerge nm pbs r = pbs := by
  cases ht : r.tFinish with
  | none => simp [pbMerge, ht]
  | some t =>
      rcases h t ht with ⟨v, hv, hle⟩
      have hnc : ¬ t < v := not_lt.mpr hle
      simp [pbMerge, ht, hv, hnc]

lemma finalizePBs_noop (rs : List Runner) :
    ∀ (nm : List String) (pbs : List (String × ℚ)),
      (∀ r ∈ rs, ∀ t, r.tFinish = some t →
        ∃ v, pbs.lookup (nameFor nm r.lane) = some v ∧ v ≤ t) →
      finalizePBs nm pbs rs = pbs := by
  induction rs with
  | nil => intro nm pbs _; rfl
  | cons a as ih =>
      intro nm pbs h
      have ha := pbMerge_noop nm pbs a (h a (List.mem_cons_self a as))
      show finalizePBs nm (pbMerge nm pbs a) as = pbs
      rw [ha]
      exact ih nm pbs (fun r hr => h r (List.mem_cons_of_mem a hr))

/-- C7: the personal-best merge stores a runner's new finish time iff
there is no prior record or the new time is strictly smaller (otherwise
the table is unchanged), and finalizing the same finish times twice in a
row equals finalizing them once. -/
theorem c7_pb_minmerge_idempotent :
    (∀ (nm : List String) (pbs : List (String × ℚ)) (r : Runner) (t : ℚ),
        r.tFinish = some t →
        (pbs.lookup (nameFor nm r.lane) = none →
          (pbMerge nm pbs r).lookup (nameFor nm r.lane) = some t) ∧
        (∀ prev, pbs.lookup (nameFor nm r.lane) = some prev →
          (t < prev →
            (pbMerge nm pbs r).lookup (nameFor nm r.lane) = some t) ∧
          (¬ t < prev → pbMerge nm pbs r = pbs))) ∧
      (∀ (nm : List String) (pbs : List (String × ℚ)) (rs : List Runner),
        finalizePBs nm (finalizePBs nm pbs rs) rs = finalizePBs nm pbs rs) := by
  constructor
  · intro nm pbs r t ht
    constructor
    · intro hnone
      simp only [pbMerge, ht, hnone]
      exact lookup_setPB_self pbs _ t
    · intro prev hprev
      constructor
      · intro hlt
        simp only [pbMerge, ht, hprev, if_pos hlt]
        exact lookup_setPB_self pbs _ t
      · intro hge
        simp only [pbMerge, ht, hprev, if_neg hge]
  · intro nm pbs rs
    exact finalizePBs_noop rs nm (finalizePBs nm pbs rs)
      (fun r hr t ht => finalizePBs_bound rs nm pbs r t hr ht)

/-- Witness for C7: the empty table takes `rFin`'s 12 s record, and
finalizing `[rFin]` is idempotent. -/
theorem c7_pb_minmerge_idempotent_witness :
    rFin.tFinish = some 12 ∧
      (List.lookup (nameFor defaultNames rFin.lane)
        ([] : List (String × ℚ)) = none) ∧
      (pbMerge defaultNames [] rFin).lookup (nameFor defaultNames rFin.lane)
        = some 12 ∧
      finalizePBs defaultNames (finalizePBs defaultNames [] [rFin]) [rFin] =
        finalizePBs defaultNames [] [rFin] :=
  ⟨rfl, rfl,
    (c7_pb_minmerge_idempotent.1 defaultNames [] rFin 12 rfl).1 rfl,
    c7_pb_minmerge_idempotent.2 defaultNames [] [rFin]⟩

end Race100m
